/-
Verification of the Lennard-Jones Metropolis Monte Carlo sampler
(blog/OldSimulations/matter.py) against its specification.

The script is embedded shallowly over the exact reals:
  * numpy float arithmetic is modelled by ℝ;
  * `np.linalg.norm` on a 2-vector is `Real.sqrt (x^2 + y^2)`;
  * `np.rint` (round half to even) is the explicit `rint` below;
  * Python's `%` on floats with a positive modulus is `pmod`;
  * the random draws (particle index, move vector, uniform variate) are
    explicit parameters of the step function `mcStep`.
-/
import Mathlib

open Finset Filter Topology

namespace Matter

noncomputable section

/-- Number of particles (`N = 100` in the source). -/
def N : ℕ := 100

/-- Number density (`density = 0.8`). -/
def density : ℝ := 0.8

/-- Box length for the square simulation box, `L = np.sqrt(N / density)`. -/
def L : ℝ := Real.sqrt ((N : ℝ) / density)

/-- LJ energy parameter (`epsilon = 1.0`). -/
def epsilon : ℝ := 1

/-- LJ distance parameter (`sigma = 1.0`). -/
def sigma : ℝ := 1

/-- Inverse temperature (`beta = 1.0`). -/
def beta : ℝ := 1

/-- Cutoff radius (`r_cut = 2.5 * sigma`). -/
def r_cut : ℝ := 2.5 * sigma

/-- Histogram bin width (`dr = 0.05`). -/
def dr : ℝ := 0.05

/-- The Lennard-Jones potential with cutoff and shift (`lj_potential`):
`if r < r_cut: U = 4*eps*((sig/r)**12 - (sig/r)**6); return U - U_cut else 0.0`. -/
def lj_potential (r : ℝ) : ℝ :=
  if r < r_cut then
    (4 * epsilon * ((sigma / r) ^ 12 - (sigma / r) ^ 6))
      - (4 * epsilon * ((sigma / r_cut) ^ 12 - (sigma / r_cut) ^ 6))
  else 0

/-- The potential evaluator with an explicit division-by-zero guard: it returns
`none` exactly when a division in `lj_potential`'s taken branch has a zero
divisor (the only runtime divisor that can vanish is `r`, in the `r < r_cut`
branch; `r_cut = 2.5` never vanishes).  `some` is the fault-free value. -/
def lj_checked (r : ℝ) : Option ℝ :=
  if r < r_cut then
    if r = 0 then none
    else some ((4 * epsilon * ((sigma / r) ^ 12 - (sigma / r) ^ 6))
      - (4 * epsilon * ((sigma / r_cut) ^ 12 - (sigma / r_cut) ^ 6)))
  else some 0

/-- Round half to even (the semantics of `np.rint`). -/
def rint (x : ℝ) : ℤ :=
  if Int.fract x < 1 / 2 then ⌊x⌋
  else if 1 / 2 < Int.fract x then ⌊x⌋ + 1
  else if ⌊x⌋ % 2 = 0 then ⌊x⌋ else ⌊x⌋ + 1

/-- Minimum image convention (`minimum_image`): `r - L * np.rint(r / L)`. -/
def minimum_image (r l : ℝ) : ℝ := r - l * (rint (r / l) : ℝ)

/-- Componentwise `minimum_image` on a 2-vector, as the source applies it to
numpy 2-arrays. -/
def minimum_image2 (v : ℝ × ℝ) (l : ℝ) : ℝ × ℝ :=
  (minimum_image v.1 l, minimum_image v.2 l)

/-- Euclidean norm of a 2-vector (`np.linalg.norm`). -/
def norm2 (v : ℝ × ℝ) : ℝ := Real.sqrt (v.1 ^ 2 + v.2 ^ 2)

/-- Minimum-image pair distance between two positions, as computed in the
source: `disp = a - b; disp = minimum_image(disp, L); r = np.linalg.norm(disp)`. -/
def pairDist (a b : ℝ × ℝ) : ℝ :=
  norm2 (minimum_image2 (a.1 - b.1, a.2 - b.2) L)

/-- Python float modulo `x % l` for `l > 0`: `x - l * ⌊x / l⌋`. -/
def pmod (x l : ℝ) : ℝ := x - l * (⌊x / l⌋ : ℝ)

/-- Trial position after the move: `positions[i] += move; positions[i] %= L`,
applied componentwise. -/
def wrapMove (p move : ℝ × ℝ) : ℝ × ℝ :=
  (pmod (p.1 + move.1) L, pmod (p.2 + move.2) L)

/-- The incremental energy difference ΔE accumulated by the sampler's inner
loop: `for j != i: dE += lj_potential(r_new) - lj_potential(r_old)` where
`r_new`/`r_old` are minimum-image distances from the new/old position of
particle `i` to `positions[j]`. -/
def trialDE (n : ℕ) (positions : Fin n → ℝ × ℝ) (i : Fin n)
    (old_pos new_pos : ℝ × ℝ) : ℝ :=
  ∑ j ∈ univ.filter (fun j => j ≠ i),
    (lj_potential (pairDist new_pos (positions j))
      - lj_potential (pairDist old_pos (positions j)))

/-- One Metropolis trial move (one iteration of the equilibration loop, lines
40-65, identical to the decorrelation loop, lines 78-96).  The random draws
`i` (particle index), `move` (uniform in `[-delta, delta]^2`) and `u`
(`np.random.rand()`) are parameters.  The move is reverted iff
`dE > 0 and u >= exp(-beta * dE)`. -/
def mcStep (n : ℕ) (positions : Fin n → ℝ × ℝ) (i : Fin n)
    (move : ℝ × ℝ) (u : ℝ) : Fin n → ℝ × ℝ :=
  let old_pos := positions i
  let new_pos := wrapMove (positions i) move
  let positions1 := Function.update positions i new_pos
  let dE := trialDE n positions1 i old_pos new_pos
  if 0 < dE ∧ Real.exp (-beta * dE) ≤ u then
    Function.update positions1 i old_pos
  else positions1

/-- A run of consecutive Metropolis trial moves; each list entry supplies the
random draws `(i, move, u)` of one step. -/
def mcRun (n : ℕ) (positions : Fin n → ℝ × ℝ)
    (steps : List (Fin n × (ℝ × ℝ) × ℝ)) : Fin n → ℝ × ℝ :=
  steps.foldl (fun p s => mcStep n p s.1 s.2.1 s.2.2) positions

/-- Both coordinates of a position lie in the box `[0, L)`. -/
def inBox (p : ℝ × ℝ) : Prop := 0 ≤ p.1 ∧ p.1 < L ∧ 0 ≤ p.2 ∧ p.2 < L

/-- Length of `r_bins = np.arange(0, L/2, dr)`: the number of grid points
`k * dr < L / 2`, i.e. `⌈(L/2) / dr⌉` (the endpoint is exclusive and
`(L/2)/dr` is not an integer). -/
def len_r_bins : ℕ := (⌈(L / 2) / dr⌉).toNat

/-- Number of histogram bins, `len(g_hist) = len(r_bins) - 1`. -/
def nbins : ℕ := len_r_bins - 1

/-- Processing of one particle pair by the sampling loop (lines 101-108):
compute the minimum-image distance `r`, and if `r < L/2` and the bin index
`int(r / dr)` is in range, add 2 to that bin. -/
def binPairStep (hist : ℕ → ℕ) (p q : ℝ × ℝ) : ℕ → ℕ :=
  let r := pairDist p q
  if r < L / 2 then
    let bin_index := (⌊r / dr⌋).toNat
    if bin_index < nbins then
      Function.update hist bin_index (hist bin_index + 2)
    else hist
  else hist

/-- The ordered pairs `(i, j)` with `i < j` visited by the sampling double
loop `for i in range(N-1): for j in range(i+1, N)`. -/
def pairIndices (n : ℕ) : List (Fin n × Fin n) :=
  (List.finRange n).flatMap fun i =>
    ((List.finRange n).filter (fun j => i < j)).map fun j => (i, j)

/-- One sampling sweep: bin every pair of the current configuration. -/
def sampleSweep (n : ℕ) (positions : Fin n → ℝ × ℝ) (hist : ℕ → ℕ) : ℕ → ℕ :=
  (pairIndices n).foldl (fun h pq => binPairStep h (positions pq.1) (positions pq.2)) hist

/-- Modelled from the spec: the total pairwise energy of a configuration, the
sum of `lj_potential` over all unordered pairs under minimum image ("the total
pairwise energy (sum of lj_potential over all unordered pairs under minimum
image)").  The source never computes this quantity; the incremental `trialDE`
is checked against it. -/
def totalEnergy (n : ℕ) (c : Fin n → ℝ × ℝ) : ℝ :=
  ∑ p : Fin n, ∑ q ∈ univ.filter (fun q => p < q),
    lj_potential (pairDist (c p) (c q))

/-- The g(r) normalizer (lines 112-121): for bin `i`,
`g_sim[i] = g_hist[i] / (n_configs * N * ideal_pairs)` with
`ideal_pairs = shell_area * rho`, `shell_area = pi*(r_upper^2 - r_lower^2)`,
`rho = N / L^2`. -/
def g_sim (g_hist : ℕ → ℝ) (n_configs : ℕ) (i : ℕ) : ℝ :=
  let area := L ^ 2
  let rho := (N : ℝ) / area
  let r_lower := (i : ℝ) * dr
  let r_upper := ((i : ℝ) + 1) * dr
  let shell_area := Real.pi * (r_upper ^ 2 - r_lower ^ 2)
  let ideal_pairs := shell_area * rho
  g_hist i / ((n_configs : ℝ) * (N : ℝ) * ideal_pairs)

/-! ### Facts about `rint` and `minimum_image` -/

lemma abs_sub_rint (x : ℝ) : |x - (rint x : ℝ)| ≤ 1 / 2 := by
  have h0 : (0 : ℝ) ≤ Int.fract x := Int.fract_nonneg x
  have h1 : Int.fract x < 1 := Int.fract_lt_one x
  have hfr : x - (⌊x⌋ : ℝ) = Int.fract x := Int.self_sub_floor x
  unfold rint
  split_ifs with ha hb hc <;> rw [abs_le] <;> push_cast <;> constructor <;>
    push_neg at * <;> linarith

lemma rint_eq_zero {x : ℝ} (h1 : -(1 / 2) ≤ x) (h2 : x ≤ 1 / 2) : rint x = 0 := by
  unfold rint
  rcases le_or_lt 0 x with hx | hx
  · have hfl : ⌊x⌋ = 0 := by
      rw [Int.floor_eq_iff]; push_cast; constructor <;> linarith
    have hfr : Int.fract x = x := by
      rw [← Int.self_sub_floor, hfl]; push_cast; ring
    split_ifs <;> first | omega | (exfalso; linarith [hfr])
  · have hfl : ⌊x⌋ = -1 := by
      rw [Int.floor_eq_iff]; push_cast; constructor <;> linarith
    have hfr : Int.fract x = x + 1 := by
      rw [← Int.self_sub_floor, hfl]; push_cast; ring
    split_ifs <;> first | omega | (exfalso; linarith [hfr])

lemma rint_neg (x : ℝ) : rint (-x) = -rint x := by
  by_cases hf : Int.fract x = 0
  · have hx : x = (⌊x⌋ : ℝ) := by
      have := Int.self_sub_floor x; rw [hf] at this; linarith
    have h3 : (-x) = ((-⌊x⌋ : ℤ) : ℝ) := by push_cast; rw [← hx]
    unfold rint
    rw [h3, Int.fract_intCast, Int.floor_intCast, hf]
    norm_num
  · have h0 : 0 < Int.fract x := lt_of_le_of_ne (Int.fract_nonneg x) (Ne.symm hf)
    have h1 : Int.fract x < 1 := Int.fract_lt_one x
    have hflneg : ⌊-x⌋ = -⌊x⌋ - 1 := by
      have hfr : x - (⌊x⌋ : ℝ) = Int.fract x := Int.self_sub_floor x
      rw [Int.floor_eq_iff]; push_cast; constructor <;> linarith
    have hfrneg : Int.fract (-x) = 1 - Int.fract x := Int.fract_neg hf
    unfold rint
    rw [hflneg, hfrneg]
    split_ifs <;> first | omega | (exfalso; linarith)

lemma minimum_image_neg (d l : ℝ) : minimum_image (-d) l = -minimum_image d l := by
  unfold minimum_image
  rw [neg_div, rint_neg]
  push_cast
  ring

lemma abs_minimum_image_le {l : ℝ} (hl : 0 < l) (d : ℝ) :
    |minimum_image d l| ≤ l / 2 := by
  have hne : l ≠ 0 := ne_of_gt hl
  have key : minimum_image d l = l * (d / l - (rint (d / l) : ℝ)) := by
    unfold minimum_image; field_simp
  rw [key, abs_mul, abs_of_pos hl]
  have := abs_sub_rint (d / l)
  calc l * |d / l - (rint (d / l) : ℝ)| ≤ l * (1 / 2) := by
        exact mul_le_mul_of_nonneg_left this hl.le
    _ = l / 2 := by ring

lemma minimum_image_idem {l : ℝ} (hl : 0 < l) (d : ℝ) :
    minimum_image (minimum_image d l) l = minimum_image d l := by
  have hb := abs_minimum_image_le hl d
  have hq : |minimum_image d l / l| ≤ 1 / 2 := by
    rw [abs_div, abs_of_pos hl, div_le_iff₀ hl]
    calc |minimum_image d l| ≤ l / 2 := hb
      _ = 1 / 2 * l := by ring
  have h0 : rint (minimum_image d l / l) = 0 :=
    rint_eq_zero (neg_le_of_abs_le hq) (le_of_abs_le hq)
  rw [show minimum_image (minimum_image d l) l
      = minimum_image d l - l * (rint (minimum_image d l / l) : ℝ) from rfl, h0]
  push_cast
  ring

/-- C3: for every real displacement component `d` and box length `L > 0`, the
minimum-image reduction `d' = d - L * rint(d / L)` satisfies `|d'| ≤ L/2`;
componentwise, every reduced displacement vector has each axis component of
absolute value at most `L/2`. -/
theorem minimum_image_bound (d l : ℝ) (hl : 0 < l) :
    |minimum_image d l| ≤ l / 2 ∧
      ∀ v : ℝ × ℝ, |(minimum_image2 v l).1| ≤ l / 2 ∧
        |(minimum_image2 v l).2| ≤ l / 2 :=
  ⟨abs_minimum_image_le hl d,
    fun v => ⟨abs_minimum_image_le hl v.1, abs_minimum_image_le hl v.2⟩⟩

/-- Witness for C3 at the concrete input `d = 3`, `L = 2`. -/
theorem minimum_image_bound_witness :
    (0 : ℝ) < 2 ∧ |minimum_image (3 : ℝ) 2| ≤ 2 / 2 :=
  ⟨by norm_num, (minimum_image_bound (3 : ℝ) 2 (by norm_num)).1⟩

/-- C10: `minimum_image` is idempotent: for every displacement `d` and box
length `L > 0`, applying the reduction twice gives the same result as applying
it once (the reduced value lies in `[-L/2, L/2]`, where `rint` of the scaled
value is `0`, including at the half-way points since `rint` rounds half to
even). -/
theorem minimum_image_idempotent (d l : ℝ) (hl : 0 < l) :
    minimum_image (minimum_image d l) l = minimum_image d l :=
  minimum_image_idem hl d

/-- Witness for C10 at the concrete input `d = 3`, `L = 2`. -/
theorem minimum_image_idempotent_witness :
    (0 : ℝ) < 2 ∧
      minimum_image (minimum_image (3 : ℝ) 2) 2 = minimum_image (3 : ℝ) 2 :=
  ⟨by norm_num, minimum_image_idempotent (3 : ℝ) 2 (by norm_num)⟩

/-! ### Facts about the box length `L = sqrt(N / density) = sqrt 125` -/

lemma L_eq : L = Real.sqrt 125 := by
  unfold L
  norm_num [N, density]

lemma L_pos : 0 < L := by
  rw [L_eq]
  exact Real.sqrt_pos.mpr (by norm_num)

lemma L_gt : 11.16 < L := by
  rw [L_eq]
  rw [Real.lt_sqrt (by norm_num)]
  norm_num

lemma L_lt : L < 11.2 := by
  rw [L_eq]
  rw [Real.sqrt_lt' (by norm_num)]
  norm_num

/-! ### C4: shape of the truncated-and-shifted potential -/

/-- C4: for `0 < r < r_cut`, `lj_potential r` is the raw LJ potential minus the
constant shift `4*eps*((sigma/r_cut)^12 - (sigma/r_cut)^6)`; for `r ≥ r_cut` it
is `0`; the shifted expression evaluated at `r = r_cut` is exactly `0`, and the
potential tends to `0` as `r → r_cut` from below (continuity at the cutoff). -/
theorem lj_potential_cutoff_spec :
    (∀ r : ℝ, 0 < r → r < r_cut →
        lj_potential r
          = 4 * epsilon * ((sigma / r) ^ 12 - (sigma / r) ^ 6)
            - 4 * epsilon * ((sigma / r_cut) ^ 12 - (sigma / r_cut) ^ 6))
  ∧ (∀ r : ℝ, r_cut ≤ r → lj_potential r = 0)
  ∧ (4 * epsilon * ((sigma / r_cut) ^ 12 - (sigma / r_cut) ^ 6)
      - 4 * epsilon * ((sigma / r_cut) ^ 12 - (sigma / r_cut) ^ 6) = 0)
  ∧ Tendsto lj_potential (𝓝[<] r_cut) (𝓝 0) := by
  refine ⟨fun r _ hlt => by unfold lj_potential; rw [if_pos hlt],
    fun r hge => by unfold lj_potential; rw [if_neg (not_lt.mpr hge)],
    by ring, ?_⟩
  have hne : r_cut ≠ 0 := by norm_num [r_cut, sigma]
  have hcont : ContinuousAt (fun r : ℝ =>
      4 * epsilon * ((sigma / r) ^ 12 - (sigma / r) ^ 6)
        - 4 * epsilon * ((sigma / r_cut) ^ 12 - (sigma / r_cut) ^ 6)) r_cut := by
    have hdiv : ContinuousAt (fun r : ℝ => sigma / r) r_cut :=
      ContinuousAt.div continuousAt_const continuousAt_id hne
    exact (((hdiv.pow 12).sub (hdiv.pow 6)).const_mul _).sub continuousAt_const
  have h2 : Tendsto (fun r : ℝ =>
      4 * epsilon * ((sigma / r) ^ 12 - (sigma / r) ^ 6)
        - 4 * epsilon * ((sigma / r_cut) ^ 12 - (sigma / r_cut) ^ 6))
      (𝓝[<] r_cut)
      (𝓝 (4 * epsilon * ((sigma / r_cut) ^ 12 - (sigma / r_cut) ^ 6)
        - 4 * epsilon * ((sigma / r_cut) ^ 12 - (sigma / r_cut) ^ 6))) :=
    hcont.tendsto.mono_left nhdsWithin_le_nhds
  rw [show (4 * epsilon * ((sigma / r_cut) ^ 12 - (sigma / r_cut) ^ 6)
      - 4 * epsilon * ((sigma / r_cut) ^ 12 - (sigma / r_cut) ^ 6)) = (0 : ℝ)
      from by ring] at h2
  refine Filter.Tendsto.congr' ?_ h2
  filter_upwards [self_mem_nhdsWithin] with x hx
  exact (by unfold lj_potential; rw [if_pos (show x < r_cut from hx)] :
    lj_potential x = _).symm

/-- Witness for C4: the first conjunct applied at `r = 1`. -/
theorem lj_potential_cutoff_spec_witness :
    (0 : ℝ) < 1 ∧ (1 : ℝ) < r_cut ∧
      lj_potential (1 : ℝ)
        = 4 * epsilon * ((sigma / 1) ^ 12 - (sigma / 1) ^ 6)
          - 4 * epsilon * ((sigma / r_cut) ^ 12 - (sigma / r_cut) ^ 6) :=
  ⟨by norm_num, by norm_num [r_cut, sigma],
    lj_potential_cutoff_spec.1 1 (by norm_num) (by norm_num [r_cut, sigma])⟩

/-! ### C9: the division-by-zero condition of the potential evaluator -/

/-- C9: the potential evaluator is fault-free with value `lj_potential r` for
every `r > 0`; its division-by-zero condition occurs exactly when `r = 0`; and
`0 < r_cut`, so at `r = 0` the `r < r_cut` branch (the dividing branch) is the
one taken, with no guard present. -/
theorem lj_checked_division_guard :
    (∀ r : ℝ, 0 < r → lj_checked r = some (lj_potential r))
  ∧ (∀ r : ℝ, lj_checked r = none ↔ r = 0)
  ∧ (0 : ℝ) < r_cut := by
  have hrc : (0 : ℝ) < r_cut := by norm_num [r_cut, sigma]
  refine ⟨?_, ?_, hrc⟩
  · intro r hr
    unfold lj_checked lj_potential
    by_cases h : r < r_cut
    · rw [if_pos h, if_pos h, if_neg (ne_of_gt hr)]
    · rw [if_neg h, if_neg h]
  · intro r
    unfold lj_checked
    constructor
    · intro h
      by_cases h1 : r < r_cut
      · rw [if_pos h1] at h
        by_cases h2 : r = 0
        · exact h2
        · rw [if_neg h2] at h
          exact absurd h (by simp)
      · rw [if_neg h1] at h
        exact absurd h (by simp)
    · intro h
      subst h
      rw [if_pos hrc, if_pos rfl]

/-- Witness for C9: the fault-free conjunct applied at `r = 3`. -/
theorem lj_checked_division_guard_witness :
    (0 : ℝ) < 3 ∧ lj_checked (3 : ℝ) = some (lj_potential 3) :=
  ⟨by norm_num, lj_checked_division_guard.1 3 (by norm_num)⟩

/-! ### C6: the g(r) normalization -/

/-- C6: for every bin `i`, the normalizer produces
`g_hist[i] / (n_configs * N * ideal_pairs)` with `r_lower = i*dr`,
`r_upper = (i+1)*dr`, `rho = N / L^2` and
`ideal_pairs = pi * (r_upper^2 - r_lower^2) * rho`. -/
theorem g_sim_normalization (g_hist : ℕ → ℝ) (n_configs : ℕ) (i : ℕ) :
    g_sim g_hist n_configs i
      = g_hist i / ((n_configs : ℝ) * (N : ℝ)
          * (Real.pi * ((((i : ℝ) + 1) * dr) ^ 2 - ((i : ℝ) * dr) ^ 2)
              * ((N : ℝ) / L ^ 2))) := rfl

/-! ### C1: the Metropolis acceptance rule -/

lemma trialDE_update_left (n : ℕ) (positions : Fin n → ℝ × ℝ) (i : Fin n)
    (x old_pos new_pos : ℝ × ℝ) :
    trialDE n (Function.update positions i x) i old_pos new_pos
      = trialDE n positions i old_pos new_pos := by
  unfold trialDE
  refine Finset.sum_congr rfl fun j hj => ?_
  rw [Function.update_noteq (Finset.mem_filter.mp hj).2]

/-- C1: for every trial move, if `ΔE ≤ 0` the move is accepted (the moved
particle deterministically keeps its wrapped new position, for every `u`); if
`ΔE > 0` it is accepted exactly when `u < exp(-beta*ΔE)`, and otherwise the
moved particle is restored to its saved old position (the state reverts). -/
theorem mcStep_metropolis_acceptance (n : ℕ) (positions : Fin n → ℝ × ℝ)
    (i : Fin n) (move : ℝ × ℝ) (u : ℝ) :
    (trialDE n positions i (positions i) (wrapMove (positions i) move) ≤ 0 →
        mcStep n positions i move u
          = Function.update positions i (wrapMove (positions i) move))
  ∧ (0 < trialDE n positions i (positions i) (wrapMove (positions i) move) →
      (u < Real.exp (-beta * trialDE n positions i (positions i)
            (wrapMove (positions i) move)) →
          mcStep n positions i move u
            = Function.update positions i (wrapMove (positions i) move))
      ∧ (Real.exp (-beta * trialDE n positions i (positions i)
            (wrapMove (positions i) move)) ≤ u →
          mcStep n positions i move u = positions)) := by
  have hde : trialDE n (Function.update positions i (wrapMove (positions i) move))
      i (positions i) (wrapMove (positions i) move)
      = trialDE n positions i (positions i) (wrapMove (positions i) move) :=
    trialDE_update_left n positions i _ _ _
  refine ⟨fun h => ?_, fun hpos => ⟨fun hu => ?_, fun hu => ?_⟩⟩
  · simp only [mcStep]
    rw [hde, if_neg]
    rintro ⟨h1, -⟩
    exact absurd h (not_le.mpr h1)
  · simp only [mcStep]
    rw [hde, if_neg]
    rintro ⟨-, h2⟩
    exact absurd hu (not_lt.mpr h2)
  · simp only [mcStep]
    rw [hde, if_pos ⟨hpos, hu⟩, Function.update_idem, Function.update_eq_self]

/-- Witness for C1: a one-particle system, where `ΔE` is the empty sum, hence
`≤ 0`, and the wrapped move is accepted. -/
theorem mcStep_metropolis_acceptance_witness :
    trialDE 1 (fun _ => ((0 : ℝ), 0)) 0 ((0 : ℝ), 0)
        (wrapMove ((0 : ℝ), 0) (0, 0)) ≤ 0
  ∧ mcStep 1 (fun _ => ((0 : ℝ), 0)) 0 (0, 0) (1 / 2)
      = Function.update (fun _ => ((0 : ℝ), 0)) 0
          (wrapMove ((0 : ℝ), 0) (0, 0)) := by
  have hempty : (univ.filter (fun j : Fin 1 => j ≠ 0)) = (∅ : Finset (Fin 1)) := by
    decide
  have hde : trialDE 1 (fun _ => ((0 : ℝ), 0)) 0 ((0 : ℝ), 0)
      (wrapMove ((0 : ℝ), 0) (0, 0)) ≤ 0 := by
    unfold trialDE
    rw [hempty, Finset.sum_empty]
  exact ⟨hde,
    (mcStep_metropolis_acceptance 1 (fun _ => ((0 : ℝ), 0)) 0 (0, 0) (1 / 2)).1 hde⟩

/-! ### C7: positions remain in the box `[0, L)` -/

lemma pmod_nonneg_lt {l : ℝ} (hl : 0 < l) (x : ℝ) :
    0 ≤ pmod x l ∧ pmod x l < l := by
  have hne : l ≠ 0 := hl.ne'
  have hkey : pmod x l = l * Int.fract (x / l) := by
    rw [← Int.self_sub_floor]
    unfold pmod
    field_simp
  constructor
  · rw [hkey]
    exact mul_nonneg hl.le (Int.fract_nonneg _)
  · rw [hkey]
    calc l * Int.fract (x / l) < l * 1 :=
          mul_lt_mul_of_pos_left (Int.fract_lt_one _) hl
      _ = l := mul_one l

lemma wrapMove_inBox (p move : ℝ × ℝ) : inBox (wrapMove p move) :=
  ⟨(pmod_nonneg_lt L_pos _).1, (pmod_nonneg_lt L_pos _).2,
    (pmod_nonneg_lt L_pos _).1, (pmod_nonneg_lt L_pos _).2⟩

lemma mcStep_inBox {n : ℕ} {positions : Fin n → ℝ × ℝ}
    (h : ∀ j, inBox (positions j)) (i : Fin n) (move : ℝ × ℝ) (u : ℝ) :
    ∀ j, inBox (mcStep n positions i move u j) := by
  intro j
  simp only [mcStep]
  split_ifs with hc
  · by_cases hj : j = i
    · subst hj
      rw [Function.update_same]
      exact h j
    · rw [Function.update_noteq hj, Function.update_noteq hj]
      exact h j
  · by_cases hj : j = i
    · subst hj
      rw [Function.update_same]
      exact wrapMove_inBox _ _
    · rw [Function.update_noteq hj]
      exact h j

/-- C7: if every initial position lies in `[0, L)` in both coordinates (as the
uniform initialization guarantees), then after any sequence of Metropolis
steps — each ending in either an accepted (wrapped) or a rejected (reverted)
move — every position still lies in `[0, L)` in both coordinates. -/
theorem mcRun_positions_inBox (n : ℕ) (positions : Fin n → ℝ × ℝ)
    (steps : List (Fin n × (ℝ × ℝ) × ℝ)) (h : ∀ j, inBox (positions j)) :
    ∀ j, inBox (mcRun n positions steps j) := by
  induction steps generalizing positions with
  | nil => exact h
  | cons s t ih => exact ih _ (mcStep_inBox h s.1 s.2.1 s.2.2)

/-- Witness for C7: one step on a single particle starting at the origin. -/
theorem mcRun_positions_inBox_witness :
    (∀ j : Fin 1, inBox ((fun _ => ((0 : ℝ), 0)) j))
  ∧ ∀ j, inBox (mcRun 1 (fun _ => ((0 : ℝ), 0)) [(0, (0, 0), 1 / 2)] j) := by
  have h0 : ∀ j : Fin 1, inBox ((fun _ => ((0 : ℝ), 0)) j) :=
    fun _ => ⟨le_refl 0, L_pos, le_refl 0, L_pos⟩
  exact ⟨h0, mcRun_positions_inBox 1 _ _ h0⟩

/-! ### C8: histogram bins never decrease -/

lemma binPairStep_le (hist : ℕ → ℕ) (p q : ℝ × ℝ) (b : ℕ) :
    hist b ≤ binPairStep hist p q b := by
  simp only [binPairStep]
  split_ifs with h1 h2
  · rw [Function.update_apply]
    by_cases hb : b = (⌊pairDist p q / dr⌋).toNat
    · rw [if_pos hb, hb]
      omega
    · rw [if_neg hb]
  · exact le_refl _
  · exact le_refl _

lemma foldl_bin_le {n : ℕ} (positions : Fin n → ℝ × ℝ) :
    ∀ (l : List (Fin n × Fin n)) (hist : ℕ → ℕ) (b : ℕ),
      hist b ≤
        (l.foldl (fun h pq => binPairStep h (positions pq.1) (positions pq.2))
          hist) b := by
  intro l
  induction l with
  | nil => intro hist b; exact le_refl _
  | cons pq t ih =>
      intro hist b
      exact le_trans (binPairStep_le hist _ _ b) (ih _ b)

/-- C8: a sampling sweep only ever increments histogram bins: for every bin,
its count after the sweep is at least its count before the sweep. -/
theorem sampleSweep_monotone (n : ℕ) (positions : Fin n → ℝ × ℝ)
    (hist : ℕ → ℕ) (b : ℕ) : hist b ≤ sampleSweep n positions hist b :=
  foldl_bin_le positions (pairIndices n) hist b

/-! ### C2: the incremental ΔE refines the total-energy difference -/

lemma pairDist_comm (a b : ℝ × ℝ) : pairDist a b = pairDist b a := by
  simp only [pairDist, norm2, minimum_image2]
  have h1 : b.1 - a.1 = -(a.1 - b.1) := by ring
  have h2 : b.2 - a.2 = -(a.2 - b.2) := by ring
  rw [h1, h2, minimum_image_neg, minimum_image_neg]
  congr 1
  ring

lemma totalEnergy_update (n : ℕ) (positions : Fin n → ℝ × ℝ) (i : Fin n)
    (x : ℝ × ℝ) :
    totalEnergy n (Function.update positions i x)
      = (∑ j ∈ univ.filter (fun j => j ≠ i),
            lj_potential (pairDist x (positions j)))
        + ∑ p ∈ univ.filter (fun p => p ≠ i),
            ∑ q ∈ univ.filter (fun q => p < q ∧ q ≠ i),
              lj_potential (pairDist (positions p) (positions q)) := by
  classical
  set c := Function.update positions i x with hc
  have hci : c i = x := Function.update_same i x positions
  have hcj : ∀ j, j ≠ i → c j = positions j := fun j hj =>
    Function.update_noteq hj x positions
  unfold totalEnergy
  rw [← Finset.add_sum_erase univ
      (fun p => ∑ q ∈ univ.filter (fun q => p < q),
        lj_potential (pairDist (c p) (c q)))
      (Finset.mem_univ i)]
  have hA : ∑ q ∈ univ.filter (fun q => i < q),
        lj_potential (pairDist (c i) (c q))
      = ∑ q ∈ univ.filter (fun q => i < q),
          lj_potential (pairDist x (positions q)) :=
    Finset.sum_congr rfl fun q hq => by
      rw [hci, hcj q (ne_of_gt (Finset.mem_filter.mp hq).2)]
  have hInner : ∀ p, p ≠ i →
      ∑ q ∈ univ.filter (fun q => p < q), lj_potential (pairDist (c p) (c q))
        = (if p < i then lj_potential (pairDist (positions p) x) else 0)
          + ∑ q ∈ univ.filter (fun q => p < q ∧ q ≠ i),
              lj_potential (pairDist (positions p) (positions q)) := by
    intro p hp
    have hcp : c p = positions p := hcj p hp
    by_cases hpi : p < i
    · have hmem : i ∈ univ.filter (fun q => p < q) :=
        Finset.mem_filter.mpr ⟨Finset.mem_univ i, hpi⟩
      rw [← Finset.add_sum_erase _ _ hmem, if_pos hpi, hcp, hci]
      congr 1
      have hset : (univ.filter (fun q => p < q)).erase i
          = univ.filter (fun q => p < q ∧ q ≠ i) := by
        ext q
        simp only [Finset.mem_erase, Finset.mem_filter, Finset.mem_univ,
          true_and]
        tauto
      rw [hset]
      exact Finset.sum_congr rfl fun q hq => by
        rw [hcj q (Finset.mem_filter.mp hq).2.2]
    · rw [if_neg hpi, zero_add]
      have hset : univ.filter (fun q => p < q)
          = univ.filter (fun q => p < q ∧ q ≠ i) := by
        ext q
        simp only [Finset.mem_filter, Finset.mem_univ, true_and]
        constructor
        · exact fun hq => ⟨hq, fun hqi => hpi (hqi ▸ hq)⟩
        · exact fun hq => hq.1
      rw [hset]
      exact Finset.sum_congr rfl fun q hq => by
        rw [hcp, hcj q (Finset.mem_filter.mp hq).2.2]
  have hB : ∑ p ∈ univ.erase i,
        ∑ q ∈ univ.filter (fun q => p < q), lj_potential (pairDist (c p) (c q))
      = (∑ p ∈ univ.erase i,
            if p < i then lj_potential (pairDist (positions p) x) else 0)
        + ∑ p ∈ univ.erase i,
            ∑ q ∈ univ.filter (fun q => p < q ∧ q ≠ i),
              lj_potential (pairDist (positions p) (positions q)) := by
    rw [← Finset.sum_add_distrib]
    exact Finset.sum_congr rfl fun p hp => hInner p (Finset.mem_erase.mp hp).1
  have hC : (∑ p ∈ univ.erase i,
        if p < i then lj_potential (pairDist (positions p) x) else 0)
      = ∑ p ∈ univ.filter (fun p => p < i),
          lj_potential (pairDist (positions p) x) := by
    rw [← Finset.sum_filter]
    congr 1
    ext p
    simp only [Finset.mem_filter, Finset.mem_erase, Finset.mem_univ, true_and,
      and_true]
    constructor
    · exact fun h => h.2
    · exact fun h => ⟨ne_of_lt h, h⟩
  have hD : ∑ p ∈ univ.filter (fun p => p < i),
        lj_potential (pairDist (positions p) x)
      = ∑ p ∈ univ.filter (fun p => p < i),
          lj_potential (pairDist x (positions p)) :=
    Finset.sum_congr rfl fun p _ => by rw [pairDist_comm]
  have hsplit : ∑ j ∈ univ.filter (fun j => j ≠ i),
        lj_potential (pairDist x (positions j))
      = (∑ j ∈ univ.filter (fun j => j < i),
            lj_potential (pairDist x (positions j)))
        + ∑ j ∈ univ.filter (fun j => i < j),
            lj_potential (pairDist x (positions j)) := by
    rw [← Finset.sum_filter_add_sum_filter_not
        (univ.filter (fun j => j ≠ i)) (fun j => j < i)]
    congr 1
    · congr 1
      ext j
      simp only [Finset.mem_filter, Finset.mem_univ, true_and]
      constructor
      · exact fun h => h.2
      · exact fun h => ⟨ne_of_lt h, h⟩
    · congr 1
      ext j
      simp only [Finset.mem_filter, Finset.mem_univ, true_and]
      constructor
      · intro h
        rcases lt_or_gt_of_ne h.1 with hlt | hgt
        · exact absurd hlt h.2
        · exact hgt
      · exact fun h => ⟨ne_of_gt h, not_lt.mpr h.le⟩
  rw [hA, hB, hC, hD, hsplit, Finset.filter_ne']
  ring

/-- C2: the incremental energy difference summed by the sampler over all
`j ≠ i` equals the total pairwise energy of the configuration with particle
`i` at `p_new` minus that of the configuration with particle `i` at `p_old`. -/
theorem trialDE_eq_totalEnergy_diff (n : ℕ) (positions : Fin n → ℝ × ℝ)
    (i : Fin n) (p_old p_new : ℝ × ℝ) :
    trialDE n positions i p_old p_new
      = totalEnergy n (Function.update positions i p_new)
        - totalEnergy n (Function.update positions i p_old) := by
  rw [totalEnergy_update, totalEnergy_update]
  unfold trialDE
  rw [Finset.sum_sub_distrib]
  ring

/-! ### C5: pair binning (corrected) -/

lemma nbins_eq : nbins = 111 := by
  have hquot : (L / 2) / dr = 10 * L := by
    rw [show dr = (0.05 : ℝ) from rfl]
    ring
  have hceil : ⌈(L / 2) / dr⌉ = 112 := by
    rw [hquot, Int.ceil_eq_iff]
    constructor
    · push_cast
      linarith [L_gt]
    · push_cast
      linarith [L_lt]
  unfold nbins len_r_bins
  rw [hceil]
  rfl

lemma rint_zero : rint 0 = 0 := rint_eq_zero (by norm_num) (by norm_num)

lemma minimum_image_zero (l : ℝ) : minimum_image 0 l = 0 := by
  unfold minimum_image
  rw [zero_div, rint_zero]
  push_cast
  ring

lemma pairDist_horizontal {a : ℝ} (h0 : 0 ≤ a) (h2 : a ≤ L / 2) :
    pairDist ((0 : ℝ), 0) (a, 0) = a := by
  have hL := L_pos
  have hfrac : a / L ≤ 1 / 2 := by
    rw [div_le_iff₀ hL]
    linarith
  have hfrac0 : 0 ≤ a / L := div_nonneg h0 hL.le
  have hmi : minimum_image (0 - a) L = -a := by
    have hr : rint ((0 - a) / L) = 0 := by
      rw [zero_sub, neg_div]
      exact rint_eq_zero (by linarith) (by linarith)
    unfold minimum_image
    rw [hr]
    push_cast
    ring
  simp only [pairDist, norm2, minimum_image2]
  rw [show (0 : ℝ) - 0 = 0 from by ring, minimum_image_zero, hmi]
  rw [show (-a) ^ 2 + (0 : ℝ) ^ 2 = a ^ 2 from by ring]
  exact Real.sqrt_sq h0

/-- C5 counterexample: the pair of particles at positions `(0,0)` and
`(5.58, 0)` has minimum-image distance `5.58 < L/2`, yet the binning step
leaves the histogram unchanged — `int(5.58/dr) = 111` fails the
`bin_index < len(g_hist)` guard (`len(g_hist) = 111`) — contradicting the
claim that every pair with `r < L/2` increments bin `floor(r/dr)` by 2. -/
theorem binPair_drops_below_half_box :
    pairDist ((0 : ℝ), 0) (5.58, 0) < L / 2
  ∧ binPairStep (fun _ => 0) ((0 : ℝ), 0) (5.58, 0) = fun _ => 0 := by
  have h558 : (5.58 : ℝ) ≤ L / 2 := by linarith [L_gt]
  have hr : pairDist ((0 : ℝ), 0) (5.58, 0) = 5.58 :=
    pairDist_horizontal (by norm_num) h558
  have hrlt : pairDist ((0 : ℝ), 0) (5.58, 0) < L / 2 := by
    rw [hr]
    linarith [L_gt]
  refine ⟨hrlt, ?_⟩
  simp only [binPairStep]
  rw [if_pos hrlt]
  have hidx : (⌊pairDist ((0 : ℝ), 0) (5.58, 0) / dr⌋).toNat = 111 := by
    rw [hr]
    rw [show (5.58 : ℝ) / dr = 111.6 from by
      rw [show dr = (0.05 : ℝ) from rfl]; norm_num]
    rw [show ⌊(111.6 : ℝ)⌋ = 111 from by
      rw [Int.floor_eq_iff]; constructor <;> norm_num]
    rfl
  rw [hidx, nbins_eq]
  rw [if_neg (by norm_num)]

/-- C5 amended: processing one unordered pair at minimum-image distance `r`
increments bin `int(r/dr)` by exactly 2 when `r < L/2` and additionally the
bin index `int(r/dr)` is below the histogram length (`nbins = 111`); when
`r < L/2` but the index is out of range, the histogram is unchanged (the pair
is dropped); and when `r ≥ L/2` the histogram is unchanged. -/
theorem binPairStep_characterization (hist : ℕ → ℕ) (p q : ℝ × ℝ) :
    (pairDist p q < L / 2 → (⌊pairDist p q / dr⌋).toNat < nbins →
        binPairStep hist p q
          = Function.update hist ((⌊pairDist p q / dr⌋).toNat)
              (hist ((⌊pairDist p q / dr⌋).toNat) + 2))
  ∧ (pairDist p q < L / 2 → ¬(⌊pairDist p q / dr⌋).toNat < nbins →
        binPairStep hist p q = hist)
  ∧ (L / 2 ≤ pairDist p q → binPairStep hist p q = hist) := by
  refine ⟨fun h1 h2 => ?_, fun h1 h2 => ?_, fun h => ?_⟩
  · simp only [binPairStep]
    rw [if_pos h1, if_pos h2]
  · simp only [binPairStep]
    rw [if_pos h1, if_neg h2]
  · simp only [binPairStep]
    rw [if_neg (not_lt.mpr h)]

/-- Witness for the amended C5: the pair at distance `1` falls in bin 20,
which is in range and gets incremented by 2. -/
theorem binPairStep_characterization_witness :
    pairDist ((0 : ℝ), 0) (1, 0) < L / 2
  ∧ binPairStep (fun _ => 0) ((0 : ℝ), 0) (1, 0)
      = Function.update (fun _ => 0)
          ((⌊pairDist ((0 : ℝ), 0) (1, 0) / dr⌋).toNat)
          ((fun _ => 0) ((⌊pairDist ((0 : ℝ), 0) (1, 0) / dr⌋).toNat) + 2) := by
  have h1 : (1 : ℝ) ≤ L / 2 := by linarith [L_gt]
  have hr : pairDist ((0 : ℝ), 0) (1, 0) = 1 :=
    pairDist_horizontal (by norm_num) h1
  have hlt : pairDist ((0 : ℝ), 0) (1, 0) < L / 2 := by
    rw [hr]
    linarith [L_gt]
  have hidx : (⌊pairDist ((0 : ℝ), 0) (1, 0) / dr⌋).toNat < nbins := by
    rw [hr, nbins_eq]
    rw [show (1 : ℝ) / dr = 20 from by
      rw [show dr = (0.05 : ℝ) from rfl]; norm_num]
    rw [show ⌊(20 : ℝ)⌋ = 20 from by
      rw [Int.floor_eq_iff]; constructor <;> norm_num]
    norm_num
  exact ⟨hlt,
    (binPairStep_characterization (fun _ => 0) ((0 : ℝ), 0) (1, 0)).1 hlt hidx⟩

end

end Matter
